import Mathlib

/-!
Verification development for the parallel work-distribution core of a
chess-problem solver (sources: optimisations/intelligent/first_move_partition.c,
platform/parallel.c, platform/worker.c, input/commandline.c).

The C code is shallowly embedded: the move-generation stack is a function
`Nat → α` together with the slot indices `base`, `top` used by the slice
`[base+1 .. top]`; loops become structural recursions; C strings become
`List Char`; file and pipe I/O becomes explicit state passing with an
outcome parameter where the C code can fail.
-/

namespace Popeye

/-! ### Move-list filter: first_move_partition.c -/

/-- Keep condition of the static-partition re-pack loop in
`first_move_partition_filter_solve` (first_move_partition.c:277):
the move at zero-based offset `mi` is kept iff `mi % total == index`. -/
def static_keep (index total mi : Nat) : Bool := mi % total == index

/-- Keep condition of the queue-mode rotation loop
(first_move_partition.c:242): the move at offset `mi` is kept iff
`(mi + rotation) % total == my_index` where `rotation = target_count % total`
(line 237). -/
def queue_keep (my_index total target_count mi : Nat) : Bool :=
  (mi + target_count % total) % total == my_index

/-- The in-place re-pack loop of `first_move_partition_filter_solve`
(first_move_partition.c:239-249 in queue mode, 275-283 in static mode; the
two loops are identical except for the keep condition `keep`): `i` runs over
the move slots `base+1 .. top` while `move_idx` counts offsets from 0; a
kept move is written at slot `new_top+1` (`++new_top; if (new_top != i)
move_generation_stack[new_top] = move_generation_stack[i];`), a dropped move
is skipped. `fuel = top - base` is the number of remaining iterations.
Returns the final stack and the final `new_top`. -/
def repack_loop {α : Type} (keep : Nat → Bool) :
    Nat → (Nat → α) → Nat → Nat → Nat → ((Nat → α) × Nat)
  | 0, stack, _, _, new_top => (stack, new_top)
  | fuel+1, stack, i, move_idx, new_top =>
    if keep move_idx then
      repack_loop keep fuel
        (if new_top + 1 = i then stack else Function.update stack (new_top + 1) (stack i))
        (i+1) (move_idx+1) (new_top+1)
    else
      repack_loop keep fuel stack (i+1) (move_idx+1) new_top

/-- `first_move_partition_filter_solve`, static-partition mode
(first_move_partition.c:262-290), applied to the move slice `[base+1 .. top]`. -/
def static_filter_run {α : Type} (index total : Nat) (stack : Nat → α) (base top : Nat) :
    (Nat → α) × Nat :=
  repack_loop (static_keep index total) (top - base) stack (base + 1) 0 base

/-- `first_move_partition_filter_solve`, queue mode with an assigned worker
index (first_move_partition.c:233-252), applied to the slice `[base+1 .. top]`. -/
def queue_filter_run {α : Type} (my_index total target_count : Nat) (stack : Nat → α)
    (base top : Nat) : (Nat → α) × Nat :=
  repack_loop (queue_keep my_index total target_count) (top - base) stack (base + 1) 0 base

/-- Slice-level reading of the re-pack loop: the sub-list of moves whose
offsets (counted from `mi`) satisfy `keep`, in their original order. -/
def keepFrom {α : Type} (keep : Nat → Bool) : Nat → List α → List α
  | _, [] => []
  | mi, m :: rest =>
    if keep mi then m :: keepFrom keep (mi+1) rest else keepFrom keep (mi+1) rest

theorem keepFrom_eq_enumFrom_filter {α : Type} (keep : Nat → Bool) :
    ∀ (n : Nat) (l : List α),
      keepFrom keep n l = ((List.enumFrom n l).filter (fun p => keep p.1)).map Prod.snd := by
  intro n l
  induction l generalizing n with
  | nil => simp [keepFrom]
  | cons m rest ih =>
    simp only [keepFrom, List.enumFrom, List.filter]
    cases h : keep n with
    | true => simp [h, ih]
    | false => simp [h, ih]

theorem keepFrom_all {α : Type} (keep : Nat → Bool) (hk : ∀ mi, keep mi = true) :
    ∀ (n : Nat) (l : List α), keepFrom keep n l = l := by
  intro n l
  induction l generalizing n with
  | nil => rfl
  | cons m rest ih => simp [keepFrom, hk, ih]

/-- Main invariant of the re-pack loop: starting with `new_top < i` and the
slots `i, i+1, ...` holding `moves`, the loop writes the kept sub-list
compactly into slots `new_top+1 ..`, leaves slots `≤ new_top` and slots past
the slice untouched, and returns `new_top` advanced by the number of kept
moves. -/
theorem repack_loop_spec {α : Type} (keep : Nat → Bool) (moves : List α) :
    ∀ (stack : Nat → α) (i move_idx new_top : Nat),
      new_top < i →
      (∀ j, j < moves.length → moves.get? j = some (stack (i + j))) →
      (repack_loop keep moves.length stack i move_idx new_top).2 =
          new_top + (keepFrom keep move_idx moves).length ∧
      (∀ j, j < (keepFrom keep move_idx moves).length →
          (keepFrom keep move_idx moves).get? j =
            some ((repack_loop keep moves.length stack i move_idx new_top).1 (new_top + 1 + j))) ∧
      (∀ j, j ≤ new_top →
          (repack_loop keep moves.length stack i move_idx new_top).1 j = stack j) ∧
      (∀ j, i + moves.length ≤ j →
          (repack_loop keep moves.length stack i move_idx new_top).1 j = stack j) := by
  induction moves with
  | nil =>
    intro stack i move_idx new_top hlt _hag
    simp [repack_loop, keepFrom]
  | cons m rest ih =>
    intro stack i move_idx new_top hlt hag
    have hm : stack i = m := by
      have h0 := hag 0 (by simp)
      simp only [Nat.add_zero, List.get?, Option.some_inj] at h0
      exact h0.symm
    have hagrest : ∀ j, j < rest.length → rest.get? j = some (stack (i + 1 + j)) := by
      intro j hj
      have h := hag (j + 1) (by simpa using Nat.succ_lt_succ hj)
      have harr : i + (j + 1) = i + 1 + j := by omega
      rw [harr] at h
      simpa [List.get?] using h
    simp only [List.length_cons, repack_loop]
    cases hk : keep move_idx with
    | true =>
      have hkf : keepFrom keep move_idx (m :: rest) = m :: keepFrom keep (move_idx + 1) rest := by
        simp [keepFrom, hk]
      simp only [hk, if_true]
      set stack2 : Nat → α :=
        if new_top + 1 = i then stack else Function.update stack (new_top + 1) (stack i)
        with hstack2
      have hstack2_ge : ∀ j, i + 1 ≤ j → stack2 j = stack j := by
        intro j hj
        by_cases hni : new_top + 1 = i
        · simp [hstack2, hni]
        · simp only [hstack2, if_neg hni]
          have hne : new_top + 1 ≠ j := by omega
          rw [Function.update_noteq (Ne.symm hne)]
      have hstack2_at : stack2 (new_top + 1) = m := by
        by_cases hni : new_top + 1 = i
        · simp [hstack2, hni, hm]
        · simp [hstack2, if_neg hni, Function.update_same, hm]
      have hstack2_le : ∀ j, j ≤ new_top → stack2 j = stack j := by
        intro j hj
        by_cases hni : new_top + 1 = i
        · simp [hstack2, hni]
        · simp only [hstack2, if_neg hni]
          have hne : new_top + 1 ≠ j := by omega
          rw [Function.update_noteq (Ne.symm hne)]
      have hag2 : ∀ j, j < rest.length → rest.get? j = some (stack2 (i + 1 + j)) := by
        intro j hj
        rw [hstack2_ge (i + 1 + j) (by omega)]
        exact hagrest j hj
      obtain ⟨h1, h2, h3, h4⟩ := ih stack2 (i+1) (move_idx+1) (new_top+1) (by omega) hag2
      refine ⟨?_, ?_, ?_, ?_⟩
      · rw [hkf]
        simp only [List.length_cons]
        omega
      · intro j hj
        rw [hkf] at hj ⊢
        simp only [List.length_cons] at hj
        cases j with
        | zero =>
          have hh := h3 (new_top + 1) (le_refl _)
          simp only [Nat.add_zero, List.get?]
          rw [hh, hstack2_at]
        | succ j' =>
          have hj' : j' < (keepFrom keep (move_idx+1) rest).length := by omega
          have hh := h2 j' hj'
          have harr : new_top + 1 + (j' + 1) = new_top + 1 + 1 + j' := by omega
          rw [harr]
          simpa [List.get?] using hh
      · intro j hj
        rw [h3 j (by omega), hstack2_le j hj]
      · intro j hj
        rw [h4 j (by omega), hstack2_ge j (by omega)]
    | false =>
      have hkf : keepFrom keep move_idx (m :: rest) = keepFrom keep (move_idx + 1) rest := by
        simp [keepFrom, hk]
      simp only [hk, Bool.false_eq_true, if_false]
      obtain ⟨h1, h2, h3, h4⟩ := ih stack (i+1) (move_idx+1) new_top (by omega) hagrest
      refine ⟨?_, ?_, ?_, ?_⟩
      · rw [hkf]
        exact h1
      · intro j hj
        rw [hkf] at hj ⊢
        exact h2 j hj
      · exact h3
      · intro j hj
        exact h4 j (by omega)

/-- The moves of `moves` whose zero-based offset satisfies `keep`, in their
original order (the spec-side reading of a filter pass). -/
def kept_offsets {α : Type} (keep : Nat → Bool) (moves : List α) : List α :=
  ((List.enumFrom 0 moves).filter (fun p => keep p.1)).map Prod.snd

theorem keepFrom_zero_eq_kept_offsets {α : Type} (keep : Nat → Bool) (moves : List α) :
    keepFrom keep 0 moves = kept_offsets keep moves :=
  keepFrom_eq_enumFrom_filter keep 0 moves

/-- Shared top-level description of one filter pass over the slice
`[base+1 .. base+len]`. -/
theorem filter_run_spec {α : Type} (keep : Nat → Bool) (moves : List α)
    (stack : Nat → α) (base : Nat)
    (hag : ∀ j, j < moves.length → moves.get? j = some (stack (base + 1 + j))) :
    (repack_loop keep moves.length stack (base + 1) 0 base).2 =
        base + (kept_offsets keep moves).length ∧
    (∀ j, j < (kept_offsets keep moves).length →
        (kept_offsets keep moves).get? j =
          some ((repack_loop keep moves.length stack (base + 1) 0 base).1 (base + 1 + j))) ∧
    (∀ j, j ≤ base → (repack_loop keep moves.length stack (base + 1) 0 base).1 j = stack j) ∧
    (∀ j, base + moves.length < j →
        (repack_loop keep moves.length stack (base + 1) 0 base).1 j = stack j) := by
  obtain ⟨h1, h2, h3, h4⟩ :=
    repack_loop_spec keep moves stack (base + 1) 0 base (by omega) hag
  rw [keepFrom_zero_eq_kept_offsets] at h1 h2
  refine ⟨h1, ?_, h3, ?_⟩
  · intro j hj
    have hh := h2 j hj
    have harr : base + 1 + j = base + 1 + j := rfl
    exact hh
  · intro j hj
    exact h4 j (by omega)

/-- C1. For every enabled static partition (`0 < total`, `index < total`) and
every move slice `[base+1 .. base+len]`, the ply-1 static first-move filter
of `first_move_partition_filter_solve` keeps exactly the moves whose
zero-based offset `i` satisfies `i % total == index`, writes them compacted
to the left in their original order, returns the new top at the new last
element, and leaves the stack outside the slice untouched; in particular
(second conjunct) `Static{0,1}` leaves every move list unchanged. -/
theorem c1_static_filter_correct :
    (∀ (α : Type) (index total : Nat), 0 < total → index < total →
      ∀ (moves : List α) (stack : Nat → α) (base : Nat),
        (∀ j, j < moves.length → moves.get? j = some (stack (base + 1 + j))) →
        (static_filter_run index total stack base (base + moves.length)).2 =
            base + (kept_offsets (static_keep index total) moves).length ∧
        (∀ j, j < (kept_offsets (static_keep index total) moves).length →
            (kept_offsets (static_keep index total) moves).get? j =
              some ((static_filter_run index total stack base (base + moves.length)).1
                (base + 1 + j))) ∧
        (∀ j, j ≤ base →
            (static_filter_run index total stack base (base + moves.length)).1 j = stack j) ∧
        (∀ j, base + moves.length < j →
            (static_filter_run index total stack base (base + moves.length)).1 j = stack j)) ∧
    (∀ (α : Type) (moves : List α) (stack : Nat → α) (base : Nat),
        (∀ j, j < moves.length → moves.get? j = some (stack (base + 1 + j))) →
        (static_filter_run 0 1 stack base (base + moves.length)).2 = base + moves.length ∧
        (∀ j, j < moves.length →
            moves.get? j =
              some ((static_filter_run 0 1 stack base (base + moves.length)).1 (base + 1 + j))) ∧
        (∀ j, j ≤ base →
            (static_filter_run 0 1 stack base (base + moves.length)).1 j = stack j) ∧
        (∀ j, base + moves.length < j →
            (static_filter_run 0 1 stack base (base + moves.length)).1 j = stack j)) := by
  constructor
  · intro α index total _ht _hi moves stack base hag
    have hfuel : base + moves.length - base = moves.length := by omega
    unfold static_filter_run
    rw [hfuel]
    exact filter_run_spec (static_keep index total) moves stack base hag
  · intro α moves stack base hag
    have hfuel : base + moves.length - base = moves.length := by omega
    have hall : keepFrom (static_keep 0 1) 0 moves = moves :=
      keepFrom_all _ (by intro mi; simp [static_keep, Nat.mod_one]) 0 moves
    have hkept : kept_offsets (static_keep 0 1) moves = moves := by
      rw [← keepFrom_zero_eq_kept_offsets, hall]
    obtain ⟨h1, h2, h3, h4⟩ := filter_run_spec (static_keep 0 1) moves stack base hag
    rw [hkept] at h1 h2
    unfold static_filter_run
    rw [hfuel]
    exact ⟨h1, h2, h3, h4⟩

/-- A concrete stack used by the move-filter witnesses: slots 1,2,3 hold the
moves 10,20,30; slot 0 and slots past the slice hold 0. -/
def wstack : Nat → Nat := fun j =>
  if j = 1 then 10 else if j = 2 then 20 else if j = 3 then 30 else 0

theorem c1_static_filter_correct_witness :
    (0 : Nat) < 2 ∧ (1 : Nat) < 2 ∧
    ((static_filter_run 1 2 wstack 0 (0 + [10, 20, 30].length)).2 =
        0 + (kept_offsets (static_keep 1 2) [10, 20, 30]).length ∧
      (∀ j, j < (kept_offsets (static_keep 1 2) [10, 20, 30]).length →
          (kept_offsets (static_keep 1 2) [10, 20, 30]).get? j =
            some ((static_filter_run 1 2 wstack 0 (0 + [10, 20, 30].length)).1 (0 + 1 + j))) ∧
      (∀ j, j ≤ 0 → (static_filter_run 1 2 wstack 0 (0 + [10, 20, 30].length)).1 j = wstack j) ∧
      (∀ j, 0 + [10, 20, 30].length < j →
          (static_filter_run 1 2 wstack 0 (0 + [10, 20, 30].length)).1 j = wstack j)) := by
  refine ⟨by decide, by decide, ?_⟩
  exact c1_static_filter_correct.1 Nat 1 2 (by decide) (by decide) [10, 20, 30] wstack 0
    (by decide)

/-- For `0 < N` and `r < N` there is exactly one `j < N` with `(a + j) % N = r`:
the rotation offsets sweep all residues. -/
theorem add_mod_exists_unique (N a r : Nat) (hN : 0 < N) (hr : r < N) :
    ∃! j, j < N ∧ (a + j) % N = r := by
  have hb : a % N < N := Nat.mod_lt _ hN
  have hsum : a % N + (r + N - a % N) = r + N := by omega
  have hcan : (a + (r + N - a % N) % N) % N = r :=
    calc (a + (r + N - a % N) % N) % N
        = (a % N + (r + N - a % N) % N) % N := (Nat.mod_add_mod a N _).symm
      _ = (a % N + (r + N - a % N)) % N := Nat.add_mod_mod _ _ _
      _ = (r + N) % N := by rw [hsum]
      _ = r % N := Nat.add_mod_right r N
      _ = r := Nat.mod_eq_of_lt hr
  refine ⟨(r + N - a % N) % N, ⟨Nat.mod_lt _ hN, hcan⟩, ?_⟩
  rintro y ⟨hy, hmod⟩
  have heq : (a + y) % N = (a + (r + N - a % N) % N) % N := by rw [hmod, hcan]
  have hyj := Nat.ModEq.add_left_cancel' a heq
  unfold Nat.ModEq at hyj
  rw [Nat.mod_eq_of_lt hy, Nat.mod_eq_of_lt (Nat.mod_lt _ hN)] at hyj
  exact hyj

/-- Exactly one worker index `w < N` keeps a given move offset at a fixed
`target_count`. -/
theorem queue_keep_partition (N tc mi : Nat) (hN : 0 < N) :
    ∃! w, w < N ∧ queue_keep w N tc mi = true := by
  refine ⟨(mi + tc % N) % N, ⟨Nat.mod_lt _ hN, ?_⟩, ?_⟩
  · unfold queue_keep
    exact beq_self_eq_true _
  · rintro w ⟨_, hw⟩
    unfold queue_keep at hw
    exact (beq_iff_eq.mp hw).symm

/-- Across `N` consecutive target visits `t0, t0+1, …, t0+N-1`, a fixed move
offset is kept by a fixed worker index exactly once. -/
theorem queue_keep_rotation_unique (N my mi t0 : Nat) (hN : 0 < N) (hmy : my < N) :
    ∃! j, j < N ∧ queue_keep my N (t0 + j) mi = true := by
  have key : ∀ j, queue_keep my N (t0 + j) mi = true ↔ (mi + t0 + j) % N = my := by
    intro j
    unfold queue_keep
    rw [beq_iff_eq, Nat.add_mod_mod, ← Nat.add_assoc]
  obtain ⟨j0, hj0, huniq⟩ := add_mod_exists_unique N (mi + t0) my hN hmy
  exact ⟨j0, ⟨hj0.1, (key j0).mpr hj0.2⟩, fun y hy => huniq y ⟨hy.1, (key y).mp hy.2⟩⟩

/-- C2. In queue mode with `0 < N` workers and claimed index `my < N`, the
ply-1 filter pass keeps exactly the moves whose offset `i` satisfies
`(i + target_count % N) % N == my` (first conjunct: the re-pack writes that
sub-list compacted to the left and updates the top, leaving the rest of the
stack untouched); for a fixed `target_count` the kept sets of the `N` worker
indices are pairwise disjoint and cover every offset (second conjunct), and
across `N` consecutive target visits each fixed offset is kept by each
worker index exactly once (third conjunct). -/
theorem c2_queue_filter_rotation :
    (∀ (α : Type) (N my tc : Nat), 0 < N → my < N →
      ∀ (moves : List α) (stack : Nat → α) (base : Nat),
        (∀ j, j < moves.length → moves.get? j = some (stack (base + 1 + j))) →
        (queue_filter_run my N tc stack base (base + moves.length)).2 =
            base + (kept_offsets (queue_keep my N tc) moves).length ∧
        (∀ j, j < (kept_offsets (queue_keep my N tc) moves).length →
            (kept_offsets (queue_keep my N tc) moves).get? j =
              some ((queue_filter_run my N tc stack base (base + moves.length)).1
                (base + 1 + j))) ∧
        (∀ j, j ≤ base →
            (queue_filter_run my N tc stack base (base + moves.length)).1 j = stack j) ∧
        (∀ j, base + moves.length < j →
            (queue_filter_run my N tc stack base (base + moves.length)).1 j = stack j)) ∧
    (∀ (N tc mi : Nat), 0 < N → ∃! w, w < N ∧ queue_keep w N tc mi = true) ∧
    (∀ (N my mi t0 : Nat), 0 < N → my < N →
      ∃! j, j < N ∧ queue_keep my N (t0 + j) mi = true) := by
  refine ⟨?_, ?_, ?_⟩
  · intro α N my tc _hN _hmy moves stack base hag
    have hfuel : base + moves.length - base = moves.length := by omega
    unfold queue_filter_run
    rw [hfuel]
    exact filter_run_spec (queue_keep my N tc) moves stack base hag
  · intro N tc mi hN
    exact queue_keep_partition N tc mi hN
  · intro N my mi t0 hN hmy
    exact queue_keep_rotation_unique N my mi t0 hN hmy

theorem c2_queue_filter_rotation_witness :
    (0 : Nat) < 3 ∧ (1 : Nat) < 3 ∧
    ((queue_filter_run 1 3 5 wstack 0 (0 + [10, 20, 30].length)).2 =
        0 + (kept_offsets (queue_keep 1 3 5) [10, 20, 30]).length ∧
      (∀ j, j < (kept_offsets (queue_keep 1 3 5) [10, 20, 30]).length →
          (kept_offsets (queue_keep 1 3 5) [10, 20, 30]).get? j =
            some ((queue_filter_run 1 3 5 wstack 0 (0 + [10, 20, 30].length)).1 (0 + 1 + j))) ∧
      (∀ j, j ≤ 0 → (queue_filter_run 1 3 5 wstack 0 (0 + [10, 20, 30].length)).1 j = wstack j) ∧
      (∀ j, 0 + [10, 20, 30].length < j →
          (queue_filter_run 1 3 5 wstack 0 (0 + [10, 20, 30].length)).1 j = wstack j)) ∧
    (∃! w, w < 3 ∧ queue_keep w 3 5 2 = true) ∧
    (∃! j, j < 3 ∧ queue_keep 1 3 (7 + j) 2 = true) := by
  refine ⟨by decide, by decide, ?_, ?_, ?_⟩
  · exact c2_queue_filter_rotation.1 Nat 3 1 5 (by decide) (by decide) [10, 20, 30] wstack 0
      (by decide)
  · exact c2_queue_filter_rotation.2.1 3 5 2 (by decide)
  · exact c2_queue_filter_rotation.2.2 3 1 2 7 (by decide) (by decide)

/-! ### Shared work queue: first_move_partition.c lines 142-231 -/

/-- The 8-byte shared queue file (first_move_partition.c:142-148):
bytes 0-3 the next worker index to assign, bytes 4-7 the total number of
workers. -/
structure QueueFile where
  next_worker_index : Nat
  total_workers : Nat
deriving DecidableEq

/-- One successful execution of the locked claim sequence
(first_move_partition.c:201-221): under the exclusive `flock`, seek to 0,
read `next_worker_index` as the claimant's `my_index`, write back
`my_index + 1`, then read `total_workers`. Returns the updated file together
with `(my_index, total_workers as read)`. The advisory lock serializes
concurrent claimants, so a concurrent run is a sequence of these atomic
steps in some schedule order. -/
def queue_claim (f : QueueFile) : QueueFile × Nat × Nat :=
  (⟨f.next_worker_index + 1, f.total_workers⟩, f.next_worker_index, f.total_workers)

/-- Run the claim sequence once for each claimant in the schedule list, in
schedule order. Returns the final file and, in execution order, one record
`(claimant, my_index received, total_workers read)` per claimant. -/
def run_claim_schedule : List Nat → QueueFile → QueueFile × List (Nat × Nat × Nat)
  | [], f => (f, [])
  | c :: cs, f =>
    let r := queue_claim f
    let rest := run_claim_schedule cs r.1
    (rest.1, (c, r.2.1, r.2.2) :: rest.2)

theorem run_claim_schedule_spec (cs : List Nat) :
    ∀ (n T : Nat),
      (run_claim_schedule cs ⟨n, T⟩).1 = ⟨n + cs.length, T⟩ ∧
      (run_claim_schedule cs ⟨n, T⟩).2.map (fun e => e.2.1) = List.range' n cs.length ∧
      (∀ e ∈ (run_claim_schedule cs ⟨n, T⟩).2, e.2.2 = T) := by
  induction cs with
  | nil => intro n T; simp [run_claim_schedule]
  | cons c cs ih =>
    intro n T
    obtain ⟨h1, h2, h3⟩ := ih (n + 1) T
    refine ⟨?_, ?_, ?_⟩
    · simp only [run_claim_schedule, queue_claim]
      rw [h1]
      simp only [List.length_cons]
      congr 1
      omega
    · simp only [run_claim_schedule, queue_claim, List.map_cons, List.length_cons,
        List.range'_succ]
      rw [h2]
    · intro e he
      simp only [run_claim_schedule, queue_claim, List.mem_cons] at he
      rcases he with he | he
      · rw [he]
      · exact h3 e he

/-- C3. Starting from queue file state `(0, K)`, if `K` claimants each
execute the locked claim sequence exactly once, in any order (the advisory
lock serializes the critical sections, so a run is `run_claim_schedule` over
an arbitrary schedule of length `K`), then the received `my_index` values
are exactly `0, 1, …, K-1` in execution order (hence distinct), every
claimant reads `total_workers = K`, and the file afterwards contains
`(K, K)`. -/
theorem c3_queue_claim_uniqueness (K : Nat) (sched : List Nat) (hlen : sched.length = K) :
    (run_claim_schedule sched ⟨0, K⟩).2.map (fun e => e.2.1) = List.range K ∧
    ((run_claim_schedule sched ⟨0, K⟩).2.map (fun e => e.2.1)).Nodup ∧
    (∀ e ∈ (run_claim_schedule sched ⟨0, K⟩).2, e.2.2 = K) ∧
    (run_claim_schedule sched ⟨0, K⟩).1 = ⟨K, K⟩ := by
  obtain ⟨h1, h2, h3⟩ := run_claim_schedule_spec sched 0 K
  have hr : List.range' 0 sched.length = List.range K := by
    rw [hlen, List.range_eq_range']
  refine ⟨?_, ?_, h3, ?_⟩
  · rw [h2, hr]
  · rw [h2, hr]
    exact List.nodup_range K
  · rw [h1]
    simp [hlen]

theorem c3_queue_claim_uniqueness_witness :
    ([2, 0, 1] : List Nat).length = 3 ∧
    ((run_claim_schedule [2, 0, 1] ⟨0, 3⟩).2.map (fun e => e.2.1) = List.range 3 ∧
     ((run_claim_schedule [2, 0, 1] ⟨0, 3⟩).2.map (fun e => e.2.1)).Nodup ∧
     (∀ e ∈ (run_claim_schedule [2, 0, 1] ⟨0, 3⟩).2, e.2.2 = 3) ∧
     (run_claim_schedule [2, 0, 1] ⟨0, 3⟩).1 = ⟨3, 3⟩) :=
  ⟨by decide, c3_queue_claim_uniqueness 3 [2, 0, 1] (by decide)⟩

/-! ### The ply-1 hook dispatch: first_move_partition_filter_solve -/

/-- The file-static state of `first_move_partition_filter_solve`
(first_move_partition.c:42-51 and the function-local statics at lines
192-194). `my_worker_index` and `total_workers_in_queue` are C `int`s
(-1 / 0 meaning unassigned); `target_count` is the queue-mode invocation
counter. -/
structure FilterState where
  work_queue_mode : Bool
  my_worker_index : Int
  total_workers_in_queue : Int
  target_count : Nat
  first_move_partition_index : Nat
  first_move_partition_total : Nat
  first_move_count_reported : Bool
  total_first_moves : Nat
deriving DecidableEq

/-- Outcome of the one-shot claim attempt against the shared queue
(first_move_partition.c:199-231). `ioFail` covers a failed `flock`, `lseek`
or first `read` (no local field is set); `claimed cur tot` means
`next_worker_index` was read as `cur` (so `my_worker_index := cur`), and the
follow-up read of `total_workers` either returned `t` (`tot = some t`) or
failed (`tot = none`, leaving `total_workers_in_queue` untouched at 0). -/
inductive ClaimOutcome where
  | ioFail : ClaimOutcome
  | claimed : Nat → Option Nat → ClaimOutcome
deriving DecidableEq

/-- Effect of the claim attempt on the filter state (lines 201-222). -/
def apply_claim (st : FilterState) : ClaimOutcome → FilterState
  | ClaimOutcome.ioFail => st
  | ClaimOutcome.claimed cur tot =>
    { st with my_worker_index := (cur : Int),
              total_workers_in_queue :=
                match tot with
                | some t => (t : Int)
                | none => st.total_workers_in_queue }

/-- The queue-mode filtering step (lines 233-252) at slice level (the
in-place array effect of the loop is characterised by `filter_run_spec`).
`none` models the undefined behaviour of `target_count % total` when
`total_workers_in_queue` is still 0 (C modulo by zero); the Bool records
whether this invocation attempted the claim I/O. -/
def queue_apply {α : Type} (st : FilterState) (moves : List α) (attempted : Bool) :
    Option (FilterState × List α × Bool) :=
  if st.total_workers_in_queue = 0 then none
  else some (st,
    keepFrom (queue_keep st.my_worker_index.toNat st.total_workers_in_queue.toNat
      st.target_count) 0 moves, attempted)

/-- One invocation of `first_move_partition_filter_solve`
(first_move_partition.c:158-298) at slice level. `at_ply1` is the
`parent_ply[nbply] == ply_retro_move` test (line 165); `oc` is the outcome
of the claim I/O, consulted only on a queue-mode first call. Returns the
new state, the move slice passed on to `pipe_solve_delegate`, and whether
the claim I/O was attempted; `none` only on the modulo-by-zero path. -/
def first_move_hook {α : Type} (st : FilterState) (at_ply1 : Bool) (oc : ClaimOutcome)
    (moves : List α) : Option (FilterState × List α × Bool) :=
  if at_ply1 then
    let st1 := if st.first_move_count_reported then st
      else { st with total_first_moves := moves.length, first_move_count_reported := true }
    if st1.work_queue_mode then
      let st2 := { st1 with target_count := st1.target_count + 1 }
      if st2.my_worker_index < 0 then
        let st3 := apply_claim st2 oc
        if st3.my_worker_index < 0 ∨ st3.total_workers_in_queue = 0 then
          some (st3, moves, true)
        else queue_apply st3 moves true
      else queue_apply st2 moves false
    else if 0 < st1.first_move_partition_total then
      some (st1,
        keepFrom (static_keep st1.first_move_partition_index st1.first_move_partition_total)
          0 moves, false)
    else some (st1, moves, false)
  else some (st, moves, false)

/-- C6 (amended). `target_count` is incremented exactly on queue-mode ply-1
invocations: a ply-1 invocation increments it iff `work_queue_mode` is set
(first conjunct), and a non-ply-1 invocation never increments it (second
conjunct). -/
theorem c6_target_count_only_queue :
    (∀ (α : Type) (st : FilterState) (oc : ClaimOutcome) (moves : List α) r,
        first_move_hook st true oc moves = some r →
        r.1.target_count =
          (if st.work_queue_mode then st.target_count + 1 else st.target_count)) ∧
    (∀ (α : Type) (st : FilterState) (oc : ClaimOutcome) (moves : List α) r,
        first_move_hook st false oc moves = some r → r.1.target_count = st.target_count) := by
  constructor
  · intro α st oc moves r h
    by_cases hwq : st.work_queue_mode
    · rw [if_pos hwq]
      by_cases hrep : st.first_move_count_reported <;>
        simp only [first_move_hook, hrep, hwq, if_true, if_false, Bool.false_eq_true,
          ite_true, ite_false] at h <;>
      · split at h
        · split at h
          · cases h
            cases oc with
            | ioFail => simp [apply_claim]
            | claimed cur tot => cases tot <;> simp [apply_claim]
          · simp only [queue_apply] at h
            split at h
            · cases h
            · cases h
              cases oc with
              | ioFail => simp [apply_claim]
              | claimed cur tot => cases tot <;> simp [apply_claim]
        · simp only [queue_apply] at h
          split at h
          · cases h
          · cases h
            simp
    · rw [if_neg hwq]
      by_cases hrep : st.first_move_count_reported <;>
        simp only [first_move_hook, hrep, hwq, if_true, if_false, Bool.false_eq_true,
          ite_true, ite_false] at h <;>
        (split at h <;> (cases h; simp))
  · intro α st oc moves r h
    simp only [first_move_hook, Bool.false_eq_true, if_false] at h
    cases h
    rfl

/-- Queue-mode state before the first ply-1 invocation: unassigned index. -/
def st_queue0 : FilterState := ⟨true, -1, 0, 0, 0, 0, false, 0⟩

/-- Off-mode state (no queue, no static partition). -/
def st_off0 : FilterState := ⟨false, -1, 0, 0, 0, 0, false, 0⟩

/-- Static-partition state `Static{1,2}`. -/
def st_static0 : FilterState := ⟨false, -1, 0, 0, 1, 2, false, 0⟩

/-- C6 counterexample. Concrete ply-1 invocations in Off mode and in Static
mode leave `target_count` unchanged, refuting the claim that every ply-1
invocation increments `target_count` in every filter mode. -/
theorem c6_counterexample :
    first_move_hook st_off0 true ClaimOutcome.ioFail ([7, 8] : List Nat) =
        some (⟨false, -1, 0, 0, 0, 0, true, 2⟩, [7, 8], false) ∧
    (⟨false, -1, 0, 0, 0, 0, true, 2⟩ : FilterState).target_count = st_off0.target_count ∧
    first_move_hook st_static0 true ClaimOutcome.ioFail ([7, 8] : List Nat) =
        some (⟨false, -1, 0, 0, 1, 2, true, 2⟩, [8], false) ∧
    (⟨false, -1, 0, 0, 1, 2, true, 2⟩ : FilterState).target_count = st_static0.target_count := by
  refine ⟨by decide, by decide, by decide, by decide⟩

theorem c6_target_count_only_queue_witness :
    first_move_hook st_queue0 true ClaimOutcome.ioFail ([5, 6] : List Nat) =
        some (⟨true, -1, 0, 1, 0, 0, true, 2⟩, [5, 6], true) ∧
    (⟨true, -1, 0, 1, 0, 0, true, 2⟩ : FilterState).target_count =
        (if st_queue0.work_queue_mode then st_queue0.target_count + 1
         else st_queue0.target_count) :=
  ⟨by decide,
   c6_target_count_only_queue.1 Nat st_queue0 ClaimOutcome.ioFail [5, 6]
     (⟨true, -1, 0, 1, 0, 0, true, 2⟩, [5, 6], true) (by decide)⟩

/-- The once-per-problem first-move-count recording
(first_move_partition.c:172-176). -/
def after_report (st : FilterState) (len : Nat) : FilterState :=
  if st.first_move_count_reported then st
  else { st with total_first_moves := len, first_move_count_reported := true }

/-- C7 (amended). A queue-mode ply-1 invocation whose claim attempt fails
with I/O error (`flock`/`lseek`/`read` failure, no index assigned) delegates
with the move list unfiltered (first conjunct; only `target_count` and the
first-move-count recording change), leaves `my_worker_index` unassigned
(second conjunct), and — contrary to the original claim — the queue access
IS retried: every subsequent queue-mode ply-1 invocation with an unassigned
index attempts the claim I/O again (third conjunct). -/
theorem c7_queue_failure_retry :
    (∀ (α : Type) (st : FilterState) (moves : List α),
        st.work_queue_mode = true → st.my_worker_index < 0 →
        first_move_hook st true ClaimOutcome.ioFail moves =
          some ({ after_report st moves.length with
                  target_count := (after_report st moves.length).target_count + 1 },
                moves, true)) ∧
    (∀ (st : FilterState) (len : Nat),
        (after_report st len).my_worker_index = st.my_worker_index ∧
        (after_report st len).work_queue_mode = st.work_queue_mode ∧
        (after_report st len).target_count = st.target_count) ∧
    (∀ (α : Type) (st : FilterState) (oc : ClaimOutcome) (moves : List α) r,
        st.work_queue_mode = true → st.my_worker_index < 0 →
        first_move_hook st true oc moves = some r → r.2.2 = true) := by
  refine ⟨?_, ?_, ?_⟩
  · intro α st moves hwq hmy
    by_cases hrep : st.first_move_count_reported <;>
      simp only [first_move_hook, after_report, hrep, hwq, if_true, if_false,
        Bool.false_eq_true, ite_true, ite_false, apply_claim] <;>
      rw [if_pos hmy, if_pos (Or.inl hmy)]
  · intro st len
    unfold after_report
    split <;> exact ⟨rfl, rfl, rfl⟩
  · intro α st oc moves r hwq hmy h
    by_cases hrep : st.first_move_count_reported <;>
      simp only [first_move_hook, hrep, hwq, if_true, if_false, Bool.false_eq_true,
        ite_true, ite_false] at h <;>
      rw [if_pos hmy] at h <;>
      (split at h
       · cases h
         rfl
       · simp only [queue_apply] at h
         split at h
         · cases h
         · cases h
           rfl)

/-- C7 counterexample. Two consecutive queue-mode ply-1 invocations whose
claim attempts both fail: the second invocation attempts the queue I/O
again (third component `true`), refuting "the failed queue access is never
retried on subsequent hook invocations". -/
theorem c7_counterexample :
    first_move_hook st_queue0 true ClaimOutcome.ioFail ([5, 6] : List Nat) =
        some (⟨true, -1, 0, 1, 0, 0, true, 2⟩, [5, 6], true) ∧
    first_move_hook (⟨true, -1, 0, 1, 0, 0, true, 2⟩ : FilterState) true ClaimOutcome.ioFail
        ([5, 6] : List Nat) =
        some (⟨true, -1, 0, 2, 0, 0, true, 2⟩, [5, 6], true) := by
  refine ⟨by decide, by decide⟩

theorem c7_queue_failure_retry_witness :
    st_queue0.work_queue_mode = true ∧ st_queue0.my_worker_index < 0 ∧
    first_move_hook st_queue0 true ClaimOutcome.ioFail ([5, 6] : List Nat) =
      some ({ after_report st_queue0 ([5, 6] : List Nat).length with
              target_count := (after_report st_queue0 ([5, 6] : List Nat).length).target_count + 1 },
            [5, 6], true) :=
  ⟨by decide, by decide,
   c7_queue_failure_retry.1 Nat st_queue0 [5, 6] (by decide) (by decide)⟩

/-! ### Progress aggregation: parallel.c handle_progress -/

/-- Coordinator-side per-worker progress record (parallel.c:102-114,
fields used by `handle_progress`). -/
structure PWorker where
  finished : Bool
  last_depth : Nat
  positions_at_depth : Nat → Nat

/-- Replace the element at index `wi` (identity when out of range). -/
def modify_worker (f : PWorker → PWorker) : Nat → List PWorker → List PWorker
  | _, [] => []
  | 0, w :: ws => f w :: ws
  | n+1, w :: ws => w :: modify_worker f n ws

/-- The total-positions sum of parallel.c:242-244: `positions_at_depth[d]`
summed over all workers (finished ones included). -/
def sumPositions (ws : List PWorker) (d : Nat) : Nat :=
  (ws.map (fun w => w.positions_at_depth d)).sum

/-- The minimum scan of parallel.c:228-232: starting from `depth`, take the
minimum over all non-finished workers of `last_depth`. -/
def min_depth_fold (ws : List PWorker) (depth : Nat) : Nat :=
  ws.foldl (fun md w => if w.finished = false ∧ w.last_depth < md then w.last_depth else md)
    depth

/-- Result of one `handle_progress` call (or of a run of calls): the worker
array, the aggregated cursor `last_printed_depth`, and the aggregate rows
printed, each `(encoded depth, total positions)`. -/
structure ProgTrace where
  workers : List PWorker
  last_printed : Nat
  rows : List (Nat × Nat)

/-- `handle_progress` (parallel.c:208-258). The worker `wi` reports
`(m, k, positions)`; its record is updated when the encoded depth is below
`MAX_DEPTH_TRACKED = 10000`; with the `movenbr` option set and
`depth > last_printed_depth`, the rows `last_printed_depth+1 .. min_depth`
are printed, each summing `positions_at_depth[d]` over all workers, and the
cursor advances to `min_depth` (the wall-clock time in each printed row is
not modelled). -/
def hp_update (ws : List PWorker) (wi depth pos : Nat) : List PWorker :=
  if depth < 10000 then
    modify_worker (fun w =>
      { w with last_depth := depth,
               positions_at_depth := fun d => if d = depth then pos else w.positions_at_depth d })
      wi ws
  else ws

/-- The printing part of `handle_progress` (parallel.c:217-257), applied to
the already-updated worker array `ws1`. -/
def hp_print (movenbr : Bool) (ws1 : List PWorker) (lp depth : Nat) : ProgTrace :=
  if movenbr then
    if lp < depth then
      ⟨ws1, max lp (min_depth_fold ws1 depth),
        (List.range' (lp + 1) (min_depth_fold ws1 depth - lp)).map
          (fun d => (d, sumPositions ws1 d))⟩
    else ⟨ws1, lp, []⟩
  else ⟨ws1, lp, []⟩

def handle_progress (movenbr : Bool) (ws : List PWorker) (wi : Nat) (lp m k pos : Nat) :
    ProgTrace :=
  hp_print movenbr (hp_update ws wi (m * 100 + k) pos) lp (m * 100 + k)

/-- A `@@PROGRESS` event: reporting worker index and payload. -/
structure PEvent where
  wi : Nat
  m : Nat
  k : Nat
  pos : Nat

/-- A run of `handle_progress` calls, accumulating printed rows. -/
def run_progress (movenbr : Bool) : List PWorker → Nat → List PEvent → ProgTrace
  | ws, lp, [] => ⟨ws, lp, []⟩
  | ws, lp, e :: es =>
    let r := handle_progress movenbr ws e.wi lp e.m e.k e.pos
    let rest := run_progress movenbr r.workers r.last_printed es
    ⟨rest.workers, rest.last_printed, r.rows ++ rest.rows⟩

theorem min_depth_fold_le_init (ws : List PWorker) :
    ∀ a, min_depth_fold ws a ≤ a := by
  induction ws with
  | nil => intro a; exact le_refl a
  | cons w ws ih =>
    intro a
    unfold min_depth_fold
    simp only [List.foldl_cons]
    by_cases h : w.finished = false ∧ w.last_depth < a
    · rw [if_pos h]
      exact le_trans (ih w.last_depth) (le_of_lt h.2)
    · rw [if_neg h]
      exact ih a

theorem min_depth_fold_le_worker (ws : List PWorker) :
    ∀ a, ∀ w ∈ ws, w.finished = false → min_depth_fold ws a ≤ w.last_depth := by
  induction ws with
  | nil => intro a w hw; simp at hw
  | cons u ws ih =>
    intro a w hw hfin
    unfold min_depth_fold
    simp only [List.foldl_cons]
    rcases List.mem_cons.mp hw with hw | hw
    · subst hw
      by_cases h : w.finished = false ∧ w.last_depth < a
      · rw [if_pos h]
        exact min_depth_fold_le_init ws w.last_depth
      · have : a ≤ w.last_depth := by
          rcases Decidable.not_and_iff_or_not.mp h with h1 | h2
          · exact absurd hfin h1
          · omega
        rw [if_neg h]
        exact le_trans (min_depth_fold_le_init ws a) this
    · by_cases h : u.finished = false ∧ u.last_depth < a
      · rw [if_pos h]
        exact ih u.last_depth w hw hfin
      · rw [if_neg h]
        exact ih a w hw hfin

theorem handle_progress_lp_le (movenbr : Bool) (ws : List PWorker) (wi lp m k pos : Nat) :
    lp ≤ (handle_progress movenbr ws wi lp m k pos).last_printed := by
  unfold handle_progress hp_print
  split
  · split
    · exact le_max_left _ _
    · exact le_refl lp
  · exact le_refl lp

theorem handle_progress_rows (movenbr : Bool) (ws : List PWorker) (wi lp m k pos : Nat) :
    ∀ p ∈ (handle_progress movenbr ws wi lp m k pos).rows,
      lp < p.1 ∧ p.1 ≤ (handle_progress movenbr ws wi lp m k pos).last_printed ∧
      p.2 = sumPositions (handle_progress movenbr ws wi lp m k pos).workers p.1 ∧
      (∀ w ∈ (handle_progress movenbr ws wi lp m k pos).workers,
          w.finished = false → p.1 ≤ w.last_depth) := by
  unfold handle_progress hp_print
  split
  · split
    · intro p hp
      simp only [List.mem_map] at hp
      obtain ⟨d, hd, hpd⟩ := hp
      rw [List.mem_range'] at hd
      subst hpd
      refine ⟨by omega, ?_, rfl, ?_⟩
      · have hd2 : d ≤ min_depth_fold (hp_update ws wi (m * 100 + k) pos) (m * 100 + k) := by
          omega
        exact le_trans hd2 (le_max_right _ _)
      · intro w hw hfin
        have := min_depth_fold_le_worker (hp_update ws wi (m * 100 + k) pos) (m * 100 + k)
          w hw hfin
        omega
    · intro p hp
      simp at hp
  · intro p hp
    simp at hp

theorem range'_pairwise_lt (n : Nat) : ∀ s, (List.range' s n).Pairwise (· < ·) := by
  induction n with
  | zero => intro s; simp
  | succ n ih =>
    intro s
    rw [List.range'_succ]
    refine List.Pairwise.cons ?_ (ih (s+1))
    intro b hb
    rw [List.mem_range'] at hb
    omega

theorem handle_progress_rows_pairwise (movenbr : Bool) (ws : List PWorker)
    (wi lp m k pos : Nat) :
    ((handle_progress movenbr ws wi lp m k pos).rows.map Prod.fst).Pairwise (· < ·) := by
  unfold handle_progress hp_print
  split
  · split
    · simp only [List.map_map]
      have hcomp : (Prod.fst ∘ fun d => (d, sumPositions (hp_update ws wi (m * 100 + k) pos) d)) =
          fun d : Nat => d := rfl
      rw [hcomp]
      simpa using range'_pairwise_lt _ (lp + 1)
    · simp
  · simp

theorem run_progress_spec (movenbr : Bool) :
    ∀ (evs : List PEvent) (ws : List PWorker) (lp : Nat),
      lp ≤ (run_progress movenbr ws lp evs).last_printed ∧
      (∀ p ∈ (run_progress movenbr ws lp evs).rows,
          lp < p.1 ∧ p.1 ≤ (run_progress movenbr ws lp evs).last_printed) ∧
      ((run_progress movenbr ws lp evs).rows.map Prod.fst).Pairwise (· < ·) := by
  intro evs
  induction evs with
  | nil =>
    intro ws lp
    refine ⟨le_refl _, ?_, ?_⟩ <;> simp [run_progress]
  | cons e es ih =>
    intro ws lp
    have hple := handle_progress_lp_le movenbr ws e.wi lp e.m e.k e.pos
    have hrows := handle_progress_rows movenbr ws e.wi lp e.m e.k e.pos
    have hpw := handle_progress_rows_pairwise movenbr ws e.wi lp e.m e.k e.pos
    obtain ⟨ih1, ih2, ih3⟩ := ih (handle_progress movenbr ws e.wi lp e.m e.k e.pos).workers
      (handle_progress movenbr ws e.wi lp e.m e.k e.pos).last_printed
    simp only [run_progress]
    refine ⟨le_trans hple ih1, ?_, ?_⟩
    · intro p hp
      rcases List.mem_append.mp hp with hp | hp
      · obtain ⟨h1, h2, _, _⟩ := hrows p hp
        exact ⟨h1, le_trans h2 ih1⟩
      · obtain ⟨h1, h2⟩ := ih2 p hp
        exact ⟨lt_of_le_of_lt hple h1, h2⟩
    · rw [List.map_append]
      apply List.pairwise_append.mpr
      refine ⟨hpw, ih3, ?_⟩
      intro a ha b hb
      obtain ⟨p, hp, hpa⟩ := List.mem_map.mp ha
      obtain ⟨q, hq, hqb⟩ := List.mem_map.mp hb
      obtain ⟨_, h2, _, _⟩ := hrows p hp
      obtain ⟨h1q, _⟩ := ih2 q hq
      omega

/-- C4. The aggregated depth cursor `last_printed_depth` is monotone
non-decreasing across any run of progress events (first conjunct); every row
`(d, s)` printed by a `handle_progress` call has `d` above the previous
cursor, is printed only when every non-finished worker has `last_depth ≥ d`,
and sums `positions_at_depth[d]` over all workers (second conjunct); and the
depths printed across a whole run are strictly increasing (third conjunct). -/
theorem c4_depth_aggregation :
    (∀ (movenbr : Bool) (ws : List PWorker) (lp : Nat) (evs : List PEvent),
        lp ≤ (run_progress movenbr ws lp evs).last_printed) ∧
    (∀ (movenbr : Bool) (ws : List PWorker) (wi lp m k pos : Nat) p,
        p ∈ (handle_progress movenbr ws wi lp m k pos).rows →
        lp < p.1 ∧
        p.2 = sumPositions (handle_progress movenbr ws wi lp m k pos).workers p.1 ∧
        (∀ w ∈ (handle_progress movenbr ws wi lp m k pos).workers,
            w.finished = false → p.1 ≤ w.last_depth)) ∧
    (∀ (movenbr : Bool) (ws : List PWorker) (lp : Nat) (evs : List PEvent),
        ((run_progress movenbr ws lp evs).rows.map Prod.fst).Pairwise (· < ·)) := by
  refine ⟨?_, ?_, ?_⟩
  · intro movenbr ws lp evs
    exact (run_progress_spec movenbr evs ws lp).1
  · intro movenbr ws wi lp m k pos p hp
    obtain ⟨h1, _, h3, h4⟩ := handle_progress_rows movenbr ws wi lp m k pos p hp
    exact ⟨h1, h3, h4⟩
  · intro movenbr ws lp evs
    exact (run_progress_spec movenbr evs ws lp).2.2

/-- A one-worker array for the C4 witness. -/
def pw0 : PWorker := ⟨false, 0, fun _ => 0⟩

theorem c4_depth_aggregation_witness :
    ((101 : Nat), (5 : Nat)) ∈ (handle_progress true [pw0] 0 100 1 1 5).rows ∧
    (100 < (101 : Nat) ∧
     (5 : Nat) = sumPositions (handle_progress true [pw0] 0 100 1 1 5).workers 101 ∧
     (∀ w ∈ (handle_progress true [pw0] 0 100 1 1 5).workers,
         w.finished = false → 101 ≤ w.last_depth)) := by
  have hmem : ((101 : Nat), (5 : Nat)) ∈ (handle_progress true [pw0] 0 100 1 1 5).rows := by
    have : (handle_progress true [pw0] 0 100 1 1 5).rows = [(101, 5)] := by
      rfl
    rw [this]
    exact List.mem_singleton.mpr rfl
  exact ⟨hmem, c4_depth_aggregation.2.1 true [pw0] 0 100 1 1 5 (101, 5) hmem⟩

/-! ### Solution counting and worker termination: parallel.c process_worker_line -/

/-- `UINT_MAX` on the target platform (32-bit unsigned int). -/
def UINT_MAX : Nat := 4294967295

/-- Coordinator-side worker record, the fields used by `kill_all_workers`
(parallel.c:178-189): whether `pid > 0` (fork succeeded) and the `finished`
flag. -/
structure WProc where
  pid_pos : Bool
  finished : Bool
deriving DecidableEq

/-- `kill_all_workers` (parallel.c:178-189), state effect: every worker with
`pid > 0 && !finished` is marked finished. -/
def kill_all_workers (ws : List WProc) : List WProc :=
  ws.map fun w => if w.pid_pos && !w.finished then { w with finished := true } else w

/-- The workers signalled by `kill_all_workers`: indices with
`pid > 0 && !finished`, scanned from position `n`. -/
def live_indices_from : Nat → List WProc → List Nat
  | _, [] => []
  | n, w :: ws =>
    if w.pid_pos && !w.finished then n :: live_indices_from (n+1) ws
    else live_indices_from (n+1) ws

/-- `kill_all_workers` (parallel.c:178-189), signal effect: the indices that
receive `SIGTERM`. -/
def sigterm_targets (ws : List WProc) : List Nat := live_indices_from 0 ws

/-- Leading spaces and tabs (`while (*p == ' ' || *p == '\t') p++;`,
parallel.c:280). -/
def drop_space_tab (l : List Char) : List Char :=
  l.dropWhile (fun c => c == ' ' || c == '\t')

/-- The solution test of parallel.c:289-290: skip leading spaces (only
`' '`), then require the first character in `'1'..'9'` and the second `'.'`
(shorter remainders hit the terminating NUL and fail). -/
def is_solution_line (text : List Char) : Bool :=
  match text.dropWhile (fun c => c == ' ') with
  | c1 :: c2 :: _ => decide ('1' ≤ c1) && decide (c1 ≤ '9') && (c2 == '.')
  | _ => false

/-- Result of the `@@TEXT` branch: new solution counter, new worker array,
the payload printed to stdout (if any), and the worker indices signalled. -/
structure TextStep where
  counter : Nat
  workers : List WProc
  printed : Option (List Char)
  signalled : List Nat
deriving DecidableEq

/-- The `@@TEXT:` branch of `process_worker_line` (parallel.c:274-298):
skip whitespace-only payloads without printing; otherwise print the payload,
and if it passes the solution test increment `global_solutions_found`; when
`max_solutions_per_phase` is set (`< UINT_MAX`) and the new count reaches
it, run `kill_all_workers`. -/
def process_worker_line_text (cap counter : Nat) (ws : List WProc) (text : List Char) :
    TextStep :=
  if drop_space_tab text = [] then ⟨counter, ws, none, []⟩
  else if is_solution_line text then
    if cap < UINT_MAX ∧ cap ≤ counter + 1 then
      ⟨counter + 1, kill_all_workers ws, some text, sigterm_targets ws⟩
    else ⟨counter + 1, ws, some text, []⟩
  else ⟨counter, ws, some text, []⟩

theorem mem_live_indices_from (ws : List WProc) :
    ∀ n i, i ∈ live_indices_from n ws ↔
      ∃ j w, i = n + j ∧ ws.get? j = some w ∧ (w.pid_pos && !w.finished) = true := by
  induction ws with
  | nil => intro n i; simp [live_indices_from]
  | cons w ws ih =>
    intro n i
    unfold live_indices_from
    by_cases hl : (w.pid_pos && !w.finished) = true
    · rw [if_pos hl]
      simp only [List.mem_cons]
      constructor
      · rintro (rfl | hmem)
        · exact ⟨0, w, by omega, rfl, hl⟩
        · obtain ⟨j, w', hj, hg, hw'⟩ := (ih (n+1) i).mp hmem
          exact ⟨j + 1, w', by omega, by simpa [List.get?] using hg, hw'⟩
      · rintro ⟨j, w', hj, hg, hw'⟩
        cases j with
        | zero => left; omega
        | succ j' =>
          right
          exact (ih (n+1) i).mpr ⟨j', w', by omega, by simpa [List.get?] using hg, hw'⟩
    · rw [if_neg hl]
      constructor
      · intro hmem
        obtain ⟨j, w', hj, hg, hw'⟩ := (ih (n+1) i).mp hmem
        exact ⟨j + 1, w', by omega, by simpa [List.get?] using hg, hw'⟩
      · rintro ⟨j, w', hj, hg, hw'⟩
        cases j with
        | zero =>
          simp only [List.get?, Option.some_inj] at hg
          rw [← hg] at hw'
          exact absurd hw' hl
        | succ j' =>
          exact (ih (n+1) i).mpr ⟨j', w', by omega, by simpa [List.get?] using hg, hw'⟩

/-- C5 (amended). For a routed `@@TEXT` payload: a payload of only spaces
and tabs is skipped without printing or counting (conjunct 1); any other
payload is printed, and the solution counter is incremented iff, after
skipping leading spaces only (tabs are NOT skipped by the solution test),
the first character is `1..9` and the second is `.` (conjunct 2); on an
increment that reaches a set cap, all live workers are signalled and marked
finished, otherwise the worker array is untouched (conjuncts 3-4); a worker
index is signalled iff its record has `pid > 0` and was not finished, and
exactly those records are marked finished (conjuncts 5-6). -/
theorem c5_solution_cap :
    (∀ (cap counter : Nat) (ws : List WProc) (text : List Char),
        drop_space_tab text = [] →
        process_worker_line_text cap counter ws text = ⟨counter, ws, none, []⟩) ∧
    (∀ (cap counter : Nat) (ws : List WProc) (text : List Char),
        drop_space_tab text ≠ [] →
        (process_worker_line_text cap counter ws text).printed = some text ∧
        ((process_worker_line_text cap counter ws text).counter = counter + 1 ↔
          is_solution_line text = true) ∧
        ((process_worker_line_text cap counter ws text).counter = counter ↔
          is_solution_line text = false)) ∧
    (∀ (cap counter : Nat) (ws : List WProc) (text : List Char),
        drop_space_tab text ≠ [] → is_solution_line text = true →
        cap < UINT_MAX → cap ≤ counter + 1 →
        process_worker_line_text cap counter ws text =
          ⟨counter + 1, kill_all_workers ws, some text, sigterm_targets ws⟩) ∧
    (∀ (cap counter : Nat) (ws : List WProc) (text : List Char),
        drop_space_tab text ≠ [] → is_solution_line text = true →
        ¬(cap < UINT_MAX ∧ cap ≤ counter + 1) →
        process_worker_line_text cap counter ws text = ⟨counter + 1, ws, some text, []⟩) ∧
    (∀ (ws : List WProc) (i : Nat) (w : WProc),
        ws.get? i = some w → w.pid_pos = true → w.finished = false →
        i ∈ sigterm_targets ws ∧
        (kill_all_workers ws).get? i = some ⟨w.pid_pos, true⟩) ∧
    (∀ (ws : List WProc) (i : Nat),
        i ∈ sigterm_targets ws →
        ∃ w, ws.get? i = some w ∧ w.pid_pos = true ∧ w.finished = false) := by
  refine ⟨?_, ?_, ?_, ?_, ?_, ?_⟩
  · intro cap counter ws text h
    unfold process_worker_line_text
    rw [if_pos h]
  · intro cap counter ws text h
    unfold process_worker_line_text
    rw [if_neg h]
    cases hs : is_solution_line text with
    | true =>
      rw [if_pos rfl]
      by_cases hc : cap < UINT_MAX ∧ cap ≤ counter + 1
      · rw [if_pos hc]
        refine ⟨rfl, by simp, by simp⟩
      · rw [if_neg hc]
        refine ⟨rfl, by simp, by simp⟩
    | false =>
      rw [if_neg (by simp [hs])]
      refine ⟨rfl, by simp, by simp⟩
  · intro cap counter ws text h hs h1 h2
    unfold process_worker_line_text
    rw [if_neg h, if_pos hs, if_pos ⟨h1, h2⟩]
  · intro cap counter ws text h hs hc
    unfold process_worker_line_text
    rw [if_neg h, if_pos hs, if_neg hc]
  · intro ws i w hg hp hf
    constructor
    · exact (mem_live_indices_from ws 0 i).mpr ⟨i, w, by omega, hg, by simp [hp, hf]⟩
    · unfold kill_all_workers
      rw [List.get?_map, hg]
      simp [hp, hf]
  · intro ws i hmem
    obtain ⟨j, w, hj, hg, hw⟩ := (mem_live_indices_from ws 0 i).mp hmem
    have hji : j = i := by omega
    subst hji
    simp only [Bool.and_eq_true, Bool.not_eq_true'] at hw
    exact ⟨w, hg, hw.1, hw.2⟩

/-- C5 counterexample. The payload `"\t1.x"`: after leading whitespace
(space or tab, as the claim and spec word it) the first character is `1` and
the second is `.`, yet the code increments nothing because the solution test
skips only spaces — the counter stays 0. -/
theorem c5_counterexample :
    (match drop_space_tab (['\t', '1', '.', 'x'] : List Char) with
      | c1 :: c2 :: _ => decide ('1' ≤ c1) && decide (c1 ≤ '9') && (c2 == '.')
      | _ => false) = true ∧
    (process_worker_line_text UINT_MAX 0 [] ['\t', '1', '.', 'x']).counter = 0 ∧
    (process_worker_line_text UINT_MAX 0 [] ['\t', '1', '.', 'x']).printed =
      some ['\t', '1', '.', 'x'] := by
  refine ⟨by decide, by decide, by decide⟩

theorem c5_solution_cap_witness :
    drop_space_tab ([' ', '3', '.', 'a'] : List Char) ≠ [] ∧
    is_solution_line [' ', '3', '.', 'a'] = true ∧ (2 : Nat) < UINT_MAX ∧ (2 : Nat) ≤ 1 + 1 ∧
    process_worker_line_text 2 1 [⟨true, false⟩, ⟨false, false⟩, ⟨true, true⟩]
        [' ', '3', '.', 'a'] =
      ⟨2, kill_all_workers [⟨true, false⟩, ⟨false, false⟩, ⟨true, true⟩], some [' ', '3', '.', 'a'],
       sigterm_targets [⟨true, false⟩, ⟨false, false⟩, ⟨true, true⟩]⟩ :=
  ⟨by decide, by decide, by decide, by decide,
   c5_solution_cap.2.2.1 2 1 [⟨true, false⟩, ⟨false, false⟩, ⟨true, true⟩] [' ', '3', '.', 'a']
     (by decide) (by decide) (by decide) (by decide)⟩

/-! ### Line framing: parallel.c process_worker_output -/

/-- One byte of the framing loop of `process_worker_output`
(parallel.c:368-383). The accumulator is `(lines delivered so far,
line_buffer contents)`; the buffer holds at most
`sizeof(line_buffer) - 1 = 8191` bytes. `'\n'` delivers the buffer as a
line and clears it; `'\r'` is dropped; any other byte is appended when the
buffer is not full, else dropped. -/
def frame_byte (acc : List (List Char) × List Char) (c : Char) : List (List Char) × List Char :=
  if c = '\n' then (acc.1 ++ [acc.2], [])
  else if c = '\r' then acc
  else if acc.2.length < 8191 then (acc.1, acc.2 ++ [c]) else acc

/-- `process_worker_output` on one successfully read chunk (parallel.c:367-383). -/
def process_worker_output_chunk (acc : List (List Char) × List Char) (chunk : List Char) :
    List (List Char) × List Char :=
  chunk.foldl frame_byte acc

/-- The EOF / non-retryable-error path of `process_worker_output`
(parallel.c:354-363): a non-empty carried fragment is flushed once as a
final line. -/
def process_worker_eof (acc : List (List Char) × List Char) : List (List Char) :=
  if acc.2 = [] then acc.1 else acc.1 ++ [acc.2]

/-- All lines delivered to `process_worker_line` for a worker whose pipe
yields the given chunk sequence and then EOF (or a non-retryable read
error; `EAGAIN` rounds deliver no bytes and are not modelled as chunks). -/
def process_worker_stream (chunks : List (List Char)) : List (List Char) :=
  process_worker_eof (chunks.foldl process_worker_output_chunk ([], []))

/-- Spec-side splitting of a byte stream at `'\n'`: the complete
(newline-terminated) lines and the trailing fragment after the last `'\n'`. -/
def split_stream : List Char → List (List Char) × List Char
  | [] => ([], [])
  | c :: rest =>
    if c = '\n' then ([] :: (split_stream rest).1, (split_stream rest).2)
    else
      match split_stream rest with
      | (l :: ls, fr) => ((c :: l) :: ls, fr)
      | ([], fr) => ([], c :: fr)

/-- Spec-side per-line transformation: every `'\r'` removed, then truncation
to the first 8191 bytes (the 8 KiB buffer minus the terminating NUL). -/
def clean_line (l : List Char) : List Char :=
  (l.filter (fun c => !(c == '\r'))).take 8191

/-- Spec-side expected delivery for a whole stream: each complete line
cleaned, then the trailing fragment as a final line iff it is non-empty
after cleaning. -/
def stream_lines (stream : List Char) : List (List Char) :=
  (split_stream stream).1.map clean_line ++
    (if clean_line (split_stream stream).2 = [] then []
     else [clean_line (split_stream stream).2])

theorem split_stream_no_nl (p : List Char) (hp : ∀ c ∈ p, c ≠ '\n') :
    split_stream p = ([], p) := by
  induction p with
  | nil => rfl
  | cons c rest ih =>
    have hc : c ≠ '\n' := hp c (List.mem_cons_self _ _)
    have hrest := ih (fun x hx => hp x (List.mem_cons_of_mem _ hx))
    unfold split_stream
    rw [if_neg hc, hrest]

theorem split_stream_append_nl (rest : List Char) :
    ∀ p : List Char, (∀ c ∈ p, c ≠ '\n') →
      split_stream (p ++ '\n' :: rest) =
        (p :: (split_stream rest).1, (split_stream rest).2) := by
  intro p
  induction p with
  | nil =>
    intro _
    show split_stream ('\n' :: rest) = _
    simp only [split_stream, if_true]
  | cons a p' ih =>
    intro hp
    have ha : a ≠ '\n' := hp a (List.mem_cons_self _ _)
    have hrec := ih (fun x hx => hp x (List.mem_cons_of_mem _ hx))
    show split_stream (a :: (p' ++ '\n' :: rest)) = _
    simp only [split_stream]
    rw [if_neg ha, hrec]

theorem frame_byte_buffer (out : List (List Char)) (p : List Char) (c : Char) (hc : c ≠ '\n') :
    frame_byte (out, clean_line p) c = (out, clean_line (p ++ [c])) := by
  unfold frame_byte clean_line
  rw [if_neg hc]
  by_cases hr : c = '\r'
  · rw [if_pos hr]
    subst hr
    rw [List.filter_append]
    simp
  · rw [if_neg hr]
    rw [List.filter_append]
    have hfil : List.filter (fun x => !(x == '\r')) [c] = [c] := by simp [hr]
    rw [hfil, List.take_append_eq_append_take]
    have hcl : ((List.filter (fun x => !(x == '\r')) p).take 8191).length =
        min 8191 (List.filter (fun x => !(x == '\r')) p).length := List.length_take _ _
    by_cases hlen : (List.filter (fun x => !(x == '\r')) p).length < 8191
    · rw [if_pos (by omega :
        ((List.filter (fun x => !(x == '\r')) p).take 8191).length < 8191)]
      rw [List.take_of_length_le (le_of_lt hlen),
        List.take_of_length_le (by simp only [List.length_singleton]; omega)]
    · rw [if_neg (by omega :
        ¬((List.filter (fun x => !(x == '\r')) p).take 8191).length < 8191)]
      rw [show 8191 - (List.filter (fun x => !(x == '\r')) p).length = 0 from by omega]
      simp

theorem frame_run (stream : List Char) :
    ∀ (out : List (List Char)) (p : List Char), (∀ c ∈ p, c ≠ '\n') →
      stream.foldl frame_byte (out, clean_line p) =
        (out ++ (split_stream (p ++ stream)).1.map clean_line,
         clean_line (split_stream (p ++ stream)).2) := by
  induction stream with
  | nil =>
    intro out p hp
    simp only [List.foldl_nil, List.append_nil]
    rw [split_stream_no_nl p hp]
    simp
  | cons c rest ih =>
    intro out p hp
    by_cases hc : c = '\n'
    · subst hc
      simp only [List.foldl_cons]
      have hstep : frame_byte (out, clean_line p) '\n' = (out ++ [clean_line p], []) := by
        unfold frame_byte
        rw [if_pos rfl]
      rw [hstep, show ([] : List Char) = clean_line [] from rfl,
        ih (out ++ [clean_line p]) [] (by simp)]
      rw [List.nil_append, split_stream_append_nl rest p hp]
      simp [List.append_assoc]
    · simp only [List.foldl_cons]
      rw [frame_byte_buffer out p c hc]
      have hp2 : ∀ x ∈ p ++ [c], x ≠ '\n' := by
        intro x hx
        rcases List.mem_append.mp hx with h | h
        · exact hp x h
        · simp only [List.mem_singleton] at h
          subst h
          exact hc
      rw [ih out (p ++ [c]) hp2]
      rw [List.append_assoc]
      rfl

/-- C8. For every sequence of byte chunks followed by EOF (or a
non-retryable read error), the framing of `process_worker_output` delivers
exactly the `'\n'`-terminated lines of the concatenated stream with every
`'\r'` removed and each line truncated to its first 8191 bytes, fragments
after the last `'\n'` of a chunk being carried into the next chunk, and the
final non-empty carried fragment being flushed once as a last line. -/
theorem c8_line_framing (chunks : List (List Char)) :
    process_worker_stream chunks = stream_lines chunks.flatten := by
  unfold process_worker_stream stream_lines
  have hfold : chunks.foldl process_worker_output_chunk ([], []) =
      chunks.flatten.foldl frame_byte ([], []) :=
    (List.foldl_flatten frame_byte ([], []) chunks).symm
  rw [hfold, show (([], []) : List (List Char) × List Char) = ([], clean_line []) from rfl,
    frame_run chunks.flatten [] [] (by simp)]
  simp only [List.nil_append]
  unfold process_worker_eof
  dsimp only
  by_cases hfr : clean_line (split_stream chunks.flatten).2 = []
  · rw [if_pos hfr, if_pos hfr]
    simp
  · rw [if_neg hfr, if_neg hfr]

/-! ### Worker count: parallel.c parallel_fork_workers and -parallel parsing -/

/-- parallel.c:400-401: `num_workers = parallel_worker_count;
if (num_workers > 1024) num_workers = 1024;`. -/
def effective_num_workers (parallel_worker_count : Nat) : Nat :=
  if parallel_worker_count > 1024 then 1024 else parallel_worker_count

/-- worker.c:428-429: a superseded duplicate definition of the same
coordinator symbol clamps at 64 instead (it cannot be linked together with
parallel.c, which the probe and command-line paths require). -/
def worker_c_effective_num_workers (parallel_worker_count : Nat) : Nat :=
  if parallel_worker_count > 64 then 64 else parallel_worker_count

/-- input/commandline.c:126: `-parallel N` is accepted (and stored) iff the
digits parse completely and `0 < N ≤ 1024`. -/
def parallel_arg_accepted (n : Nat) : Bool := decide (0 < n) && decide (n ≤ 1024)

/-- parallel.c:427: the fork loop iterates slots `i = 1 .. num_workers`,
making exactly one pipe+fork attempt per slot (failed slots are skipped but
still attempted). -/
def fork_slots (n : Nat) : List Nat := List.range' 1 (effective_num_workers n)

/-- C9. For every worker count accepted by `-parallel` (`1 ≤ N ≤ 1024`) the
coordinator of parallel.c attempts to fork exactly `N` workers: the
effective count equals the configured count — no clamping occurs below
1024. -/
theorem c9_worker_count (n : Nat) (h : parallel_arg_accepted n = true) :
    effective_num_workers n = n ∧ (fork_slots n).length = n := by
  simp only [parallel_arg_accepted, Bool.and_eq_true, decide_eq_true_eq] at h
  have he : effective_num_workers n = n := by
    unfold effective_num_workers
    rw [if_neg (by omega)]
  refine ⟨he, ?_⟩
  unfold fork_slots
  rw [he, List.length_range']

theorem c9_worker_count_witness :
    parallel_arg_accepted 1024 = true ∧
    (effective_num_workers 1024 = 1024 ∧ (fork_slots 1024).length = 1024) :=
  ⟨by decide, c9_worker_count 1024 (by decide)⟩

/-! ### Line routing and suppression: parallel.c process_worker_line -/

/-- `strstr(line, "@@")` (parallel.c:263): the suffix of `line` starting at
the first occurrence of `@@`, if any. -/
def strstr_marker : List Char → Option (List Char)
  | [] => none
  | c :: rest =>
    if (c :: rest).take 2 = ['@', '@'] then some (c :: rest) else strstr_marker rest

def progress_tag : List Char := ['@', '@', 'P', 'R', 'O', 'G', 'R', 'E', 'S', 'S', ':']

def text_tag : List Char := ['@', '@', 'T', 'E', 'X', 'T', ':']

def ser_tag : List Char := ['s', 'e', 'r', '-']

def ser_indent_tag : List Char := [' ', ' ', 's', 'e', 'r', '-']

def solution_finished_tag : List Char :=
  ['s', 'o', 'l', 'u', 't', 'i', 'o', 'n', ' ', 'f', 'i', 'n', 'i', 's', 'h', 'e', 'd']

/-- The stdout copy decision of `process_worker_line` (parallel.c:260-339):
which payload, if any, this line itself causes to be copied to stdout. A
line containing `@@` is dispatched on the tag at the marker: `@@PROGRESS:`
lines feed `handle_progress` (whose aggregate rows are modelled separately)
and are never copied; `@@TEXT:` prints its payload unless it is only spaces
and tabs (the solution counting on that payload is
`process_worker_line_text`); every other protocol line prints nothing. A
non-protocol line is dropped when it starts with `ser-` or `  ser-`, is
blank or whitespace-only, or starts with `solution finished`; otherwise it
is printed verbatim. -/
def process_worker_line_stdout (line : List Char) : Option (List Char) :=
  match strstr_marker line with
  | some ps =>
    if progress_tag.isPrefixOf ps then none
    else if text_tag.isPrefixOf ps then
      if drop_space_tab (ps.drop 7) = [] then none else some (ps.drop 7)
    else none
  | none =>
    if ser_tag.isPrefixOf line || ser_indent_tag.isPrefixOf line then none
    else if drop_space_tab line = [] then none
    else if solution_finished_tag.isPrefixOf line then none
    else some line

theorem drop_space_tab_eq_nil_iff (l : List Char) :
    drop_space_tab l = [] ↔ ∀ c ∈ l, c = ' ' ∨ c = '\t' := by
  unfold drop_space_tab
  rw [List.dropWhile_eq_nil_iff]
  constructor
  · intro h c hc
    have hh := h c hc
    simpa using hh
  · intro h c hc
    rcases h c hc with h1 | h1 <;> simp [h1]

theorem progress_not_prefix_of_text (ps : List Char) (h : text_tag.isPrefixOf ps = true) :
    progress_tag.isPrefixOf ps = false := by
  obtain ⟨t, ht⟩ := List.isPrefixOf_iff_prefix.mp h
  rw [← ht]
  rfl

/-- C10. Suppression behaviour of the coordinator's line router: a `@@TEXT`
message whose payload is only spaces and tabs produces no output, any other
`@@TEXT` payload is printed (first conjunct); a non-protocol line is
suppressed iff it is empty or whitespace-only, begins with `ser-` or
`  ser-`, or begins with `solution finished`, and every non-suppressed
non-protocol line is printed verbatim (second conjunct). -/
theorem c10_router_suppression :
    (∀ (line ps : List Char), strstr_marker line = some ps →
        text_tag.isPrefixOf ps = true →
        ((∀ c ∈ ps.drop 7, c = ' ' ∨ c = '\t') → process_worker_line_stdout line = none) ∧
        (¬(∀ c ∈ ps.drop 7, c = ' ' ∨ c = '\t') →
          process_worker_line_stdout line = some (ps.drop 7))) ∧
    (∀ line : List Char, strstr_marker line = none →
        (process_worker_line_stdout line = none ↔
          ((∀ c ∈ line, c = ' ' ∨ c = '\t') ∨ ser_tag.isPrefixOf line = true ∨
           ser_indent_tag.isPrefixOf line = true ∨
           solution_finished_tag.isPrefixOf line = true)) ∧
        (process_worker_line_stdout line ≠ none →
          process_worker_line_stdout line = some line)) := by
  constructor
  · intro line ps hs ht
    constructor
    · intro hws
      simp only [process_worker_line_stdout, hs, progress_not_prefix_of_text ps ht,
        Bool.false_eq_true, if_false, ht, if_true]
      rw [if_pos ((drop_space_tab_eq_nil_iff _).mpr hws)]
    · intro hws
      simp only [process_worker_line_stdout, hs, progress_not_prefix_of_text ps ht,
        Bool.false_eq_true, if_false, ht, if_true]
      rw [if_neg (fun hh => hws ((drop_space_tab_eq_nil_iff _).mp hh))]
  · intro line hn
    constructor
    · simp only [process_worker_line_stdout, hn]
      by_cases h1 : (ser_tag.isPrefixOf line || ser_indent_tag.isPrefixOf line) = true
      · rw [if_pos h1]
        simp only [Bool.or_eq_true] at h1
        refine ⟨fun _ => ?_, fun _ => rfl⟩
        rcases h1 with h1 | h1
        · exact Or.inr (Or.inl h1)
        · exact Or.inr (Or.inr (Or.inl h1))
      · rw [if_neg h1]
        have h1ab := h1
        simp only [Bool.or_eq_true] at h1ab
        have h1a : ser_tag.isPrefixOf line ≠ true := fun hh => h1ab (Or.inl hh)
        have h1b : ser_indent_tag.isPrefixOf line ≠ true := fun hh => h1ab (Or.inr hh)
        by_cases h2 : drop_space_tab line = []
        · rw [if_pos h2]
          exact ⟨fun _ => Or.inl ((drop_space_tab_eq_nil_iff line).mp h2), fun _ => rfl⟩
        · rw [if_neg h2]
          by_cases h3 : solution_finished_tag.isPrefixOf line = true
          · rw [if_pos h3]
            exact ⟨fun _ => Or.inr (Or.inr (Or.inr h3)), fun _ => rfl⟩
          · rw [if_neg h3]
            constructor
            · intro hh
              exact absurd hh (by simp)
            · intro hh
              rcases hh with hh | hh | hh | hh
              · exact absurd ((drop_space_tab_eq_nil_iff line).mpr hh) h2
              · exact absurd hh h1a
              · exact absurd hh h1b
              · exact absurd hh h3
    · intro hne
      simp only [process_worker_line_stdout, hn] at hne ⊢
      by_cases h1 : (ser_tag.isPrefixOf line || ser_indent_tag.isPrefixOf line) = true
      · rw [if_pos h1] at hne
        exact absurd rfl hne
      · rw [if_neg h1] at hne ⊢
        by_cases h2 : drop_space_tab line = []
        · rw [if_pos h2] at hne
          exact absurd rfl hne
        · rw [if_neg h2] at hne ⊢
          by_cases h3 : solution_finished_tag.isPrefixOf line = true
          · rw [if_pos h3] at hne
            exact absurd rfl hne
          · rw [if_neg h3]

theorem c10_router_suppression_witness :
    strstr_marker ['x', '@', '@', 'T', 'E', 'X', 'T', ':', ' ', '\t'] =
        some ['@', '@', 'T', 'E', 'X', 'T', ':', ' ', '\t'] ∧
    text_tag.isPrefixOf ['@', '@', 'T', 'E', 'X', 'T', ':', ' ', '\t'] = true ∧
    process_worker_line_stdout ['x', '@', '@', 'T', 'E', 'X', 'T', ':', ' ', '\t'] = none :=
  ⟨by decide, by decide,
   (c10_router_suppression.1 ['x', '@', '@', 'T', 'E', 'X', 'T', ':', ' ', '\t']
       ['@', '@', 'T', 'E', 'X', 'T', ':', ' ', '\t'] (by decide) (by decide)).1 (by decide)⟩

end Popeye
